import Mathlib

/-
  Verification of the lock-free-threadpool repository.

  Shallow embedding of:
    - src/include/lockfree_queue.h   (LockFreeQueue<T, Capacity>)
    - src/include/threadpool_v2.h    (ThreadPoolV2)
    - src/include/threadpool_v3.h    (ThreadPoolV3, instrumented wrapper)
    - src/include/metrics.h          (Histogram)

  The ring buffer and the pools are concurrent C++; here they are embedded as
  a sequential semantics: single-threaded executions are modelled by pure
  functions on explicit states, and concurrent interleavings of the worker
  pool are modelled by a small-step relation in which every atomic action of
  the source (a dequeue, a counter increment, ...) is one step.  Machine
  integers (size_t) are modelled as Nat; the source indices head_/tail_ only
  grow by one per successful operation, so 64-bit wraparound is not reached
  in any execution we reason about and is not modelled.
-/

set_option maxRecDepth 10000

namespace LockFreePool

/-- One cell of the ring buffer: `struct Slot { atomic<size_t> sequence; T data; }`
(lockfree_queue.h:210-213). -/
structure Slot (α : Type) where
  sequence : ℕ
  data : α
deriving DecidableEq

/-- The ring buffer `LockFreeQueue<T, Capacity>` (lockfree_queue.h:66-222) with
`Capacity = 2 ^ k` (the source statically asserts the capacity is a power of two).
`slots` is the slot array `slots_`, `head` is `head_` (next consumer index) and
`tail` is `tail_` (next producer index). -/
structure LockFreeQueue (k : ℕ) (α : Type) where
  slots : Fin (2 ^ k) → Slot α
  head : ℕ
  tail : ℕ

/-- `MASK = Capacity - 1` (lockfree_queue.h:200). -/
def MASK (k : ℕ) : ℕ := 2 ^ k - 1

/-- The slot position `pos & MASK` used by both operations
(lockfree_queue.h:99 and 144). -/
def slotIndex (k : ℕ) (pos : ℕ) : Fin (2 ^ k) :=
  ⟨pos &&& MASK k, by
    rw [MASK, Nat.and_pow_two_sub_one_eq_mod]
    exact Nat.mod_lt _ (pow_pos (by decide) k)⟩

/-- The constructor (lockfree_queue.h:72-80): slot `i` starts with sequence `i`,
`head_ = tail_ = 0`; each slot's storage is value-initialized (`T data{}`),
modelled by `default`. -/
def mkQueue (k : ℕ) (α : Type) [Inhabited α] : LockFreeQueue k α :=
  { slots := fun i => { sequence := i.val, data := default }
    head := 0
    tail := 0 }

/-- Outcome of one pass of the `try_enqueue` loop body.  `spin` is the
`diff > 0` branch (another producer advanced `tail_`, reload and retry);
in a single-threaded execution the reloaded `tail_` is unchanged, so this
branch repeats forever, and we prove it never occurs from a reachable state. -/
inductive EnqRes (k : ℕ) (α : Type) where
  | ok (q : LockFreeQueue k α)
  | full (q : LockFreeQueue k α)
  | spin (q : LockFreeQueue k α)

/-- Outcome of one pass of the `try_dequeue` loop body; `spin` as in `EnqRes`. -/
inductive DeqRes (k : ℕ) (α : Type) where
  | got (x : α) (q : LockFreeQueue k α)
  | empty (q : LockFreeQueue k α)
  | spin (q : LockFreeQueue k α)

/-- `try_enqueue` (lockfree_queue.h:95-132), sequential semantics.  The CAS on
`tail_` always succeeds in a single-threaded execution, so the `diff == 0`
branch claims the slot, writes the item and publishes `sequence = tail + 1`. -/
def try_enqueue {k : ℕ} {α : Type} (q : LockFreeQueue k α) (item : α) : EnqRes k α :=
  let tail := q.tail
  let slot := q.slots (slotIndex k tail)
  let diff : ℤ := (slot.sequence : ℤ) - (tail : ℤ)
  if diff = 0 then
    EnqRes.ok { q with
      tail := tail + 1
      slots := Function.update q.slots (slotIndex k tail) { sequence := tail + 1, data := item } }
  else if diff < 0 then
    EnqRes.full q
  else
    EnqRes.spin q

/-- `try_dequeue` (lockfree_queue.h:140-173), sequential semantics.  On the
`diff == 0` branch the consumer claims the slot, moves the item out and
republishes `sequence = head + Capacity`.  `std::move` leaves the slot's
storage in an unspecified state that is never observed again before being
overwritten; we model it as unchanged. -/
def try_dequeue {k : ℕ} {α : Type} (q : LockFreeQueue k α) : DeqRes k α :=
  let head := q.head
  let slot := q.slots (slotIndex k head)
  let diff : ℤ := (slot.sequence : ℤ) - ((head : ℤ) + 1)
  if diff = 0 then
    DeqRes.got slot.data { q with
      head := head + 1
      slots := Function.update q.slots (slotIndex k head)
        { sequence := head + 2 ^ k, data := slot.data } }
  else if diff < 0 then
    DeqRes.empty q
  else
    DeqRes.spin q

/-- `size()` (lockfree_queue.h:180-184): `tail > head ? tail - head : 0`. -/
def size {k : ℕ} {α : Type} (q : LockFreeQueue k α) : ℕ :=
  if q.head < q.tail then q.tail - q.head else 0

/-- `empty()` (lockfree_queue.h:186): `size() == 0`. -/
def LockFreeQueue.empty {k : ℕ} {α : Type} (q : LockFreeQueue k α) : Bool :=
  size q == 0

/-- An operation issued against the ring by the (single-threaded) driver. -/
inductive QOp (α : Type) where
  | enq (x : α)
  | deq
deriving DecidableEq

/-- Observable outcome of one operation. -/
inductive QOut (α : Type) where
  | enqOk
  | enqFull
  | enqSpin
  | deqGot (x : α)
  | deqEmpty
  | deqSpin
deriving DecidableEq

/-- Run a sequence of operations against the ring, collecting the outcomes.
A `spin` outcome would be a diverging retry loop in a single-threaded
execution, so the run stops there; the refinement theorem shows it never
happens from the initial state. -/
def runRing {k : ℕ} {α : Type} :
    LockFreeQueue k α → List (QOp α) → LockFreeQueue k α × List (QOut α)
  | q, [] => (q, [])
  | q, QOp.enq x :: ops =>
    match try_enqueue q x with
    | EnqRes.ok q' =>
      let r := runRing q' ops
      (r.1, QOut.enqOk :: r.2)
    | EnqRes.full q' =>
      let r := runRing q' ops
      (r.1, QOut.enqFull :: r.2)
    | EnqRes.spin q' => (q', [QOut.enqSpin])
  | q, QOp.deq :: ops =>
    match try_dequeue q with
    | DeqRes.got x q' =>
      let r := runRing q' ops
      (r.1, QOut.deqGot x :: r.2)
    | DeqRes.empty q' =>
      let r := runRing q' ops
      (r.1, QOut.deqEmpty :: r.2)
    | DeqRes.spin q' => (q', [QOut.deqSpin])

/-- Modelled from the spec: the ideal bounded FIFO queue of capacity `C`
that the ring is specified to behave as (spec sections 4.1 and 5: FIFO per
producer, conservation, capacity bound).  Used only as the specification side
of the refinement comparison. -/
def runList {α : Type} (C : ℕ) : List α → List (QOp α) → List α × List (QOut α)
  | L, [] => (L, [])
  | L, QOp.enq x :: ops =>
    if L.length < C then
      let r := runList C (L ++ [x]) ops
      (r.1, QOut.enqOk :: r.2)
    else
      let r := runList C L ops
      (r.1, QOut.enqFull :: r.2)
  | L, QOp.deq :: ops =>
    match L with
    | [] =>
      let r := runList C ([] : List α) ops
      (r.1, QOut.deqEmpty :: r.2)
    | x :: L' =>
      let r := runList C L' ops
      (r.1, QOut.deqGot x :: r.2)

/-- The coupling invariant between a ring state and the list it represents:
`L` is the committed, not yet consumed items, oldest first.  Positions
`head ≤ i < tail` hold the items of `L` with published sequence `i + 1`;
positions `tail ≤ i < head + Capacity` are producible with sequence `i`. -/
def Inv {α : Type} [Inhabited α] (k : ℕ) (q : LockFreeQueue k α) (L : List α) : Prop :=
  q.head ≤ q.tail ∧
  q.tail ≤ q.head + 2 ^ k ∧
  L.length = q.tail - q.head ∧
  (∀ i : ℕ, i < q.tail → q.head ≤ i →
    (q.slots (slotIndex k i)).sequence = i + 1 ∧
    (q.slots (slotIndex k i)).data = L.getD (i - q.head) default) ∧
  (∀ i : ℕ, i < q.head + 2 ^ k → q.tail ≤ i →
    (q.slots (slotIndex k i)).sequence = i)

/-- Local state of one worker thread of `ThreadPoolV2::worker_loop`
(threadpool_v2.h:174-209), between the atomic actions of one serving cycle:
`idle` (about to `try_dequeue`), `gotTask` (the dequeue succeeded but
`++active_tasks_` has not happened yet), `running` (counted, executing the
task), `ranTask` (the task returned, before `--active_tasks_`),
`decremented` (after `--active_tasks_`, before `++total_completed_`). -/
inductive WStatus where
  | idle
  | gotTask
  | running
  | ranTask
  | decremented
deriving DecidableEq

/-- Combined state of a `ThreadPoolV3` (threadpool_v3.h:44-176) and the
`ThreadPoolV2` it wraps (threadpool_v2.h:69-218).  The ring holds the
type-erased wrapped tasks (opaque here, `Unit`).  `active`, `totalEnqueued`
and `totalCompleted` are the V2 atomics `active_tasks_`, `total_enqueued_`,
`total_completed_`; `submitted`, `completed`, `failed` are the V3 counters
`tasks_submitted_`, `tasks_completed_`, `tasks_failed_`; `queueDepthG` and
`activeWorkersG` are the V3 gauges; `latencyCount` is the observation count
of the latency histogram. -/
structure PoolState (k : ℕ) where
  queue : LockFreeQueue k Unit
  stop : Bool
  active : ℕ
  totalEnqueued : ℕ
  totalCompleted : ℕ
  submitted : ℕ
  completed : ℕ
  failed : ℕ
  queueDepthG : ℤ
  activeWorkersG : ℤ
  latencyCount : ℕ
  workers : List WStatus

/-- Pool state right after construction with `N` workers: fresh ring, all
counters zero, every worker idle. -/
def initPoolState (k N : ℕ) : PoolState k :=
  { queue := mkQueue k Unit
    stop := false
    active := 0
    totalEnqueued := 0
    totalCompleted := 0
    submitted := 0
    completed := 0
    failed := 0
    queueDepthG := 0
    activeWorkersG := 0
    latencyCount := 0
    workers := List.replicate N WStatus.idle }

/-- Interleaving semantics of the instrumented pool: each step is one atomic
action of the source, in source order.

  * `submit`: a successful `ThreadPoolV3::enqueue` (threadpool_v3.h:102-144):
    `tasks_submitted_->inc()`, then `pool_.enqueue` publishes the wrapper to
    the ring and bumps `total_enqueued_`, then the queue-depth gauge is set.
  * `dequeue`: the worker's `queue_.try_dequeue()` succeeds
    (threadpool_v2.h:179); the worker now holds the task but has NOT yet
    touched `active_tasks_`.
  * `incActive`: `++active_tasks_` (threadpool_v2.h:183).
  * `execTask`: `(*task)()` (threadpool_v2.h:184) runs the V3 wrapper
    (threadpool_v3.h:119-139) to completion: the wrapper's gauge increment
    and decrement cancel, the queue-depth gauge is refreshed, the latency
    histogram records one observation, and `tasks_completed_` or
    `tasks_failed_` is bumped according to whether the user callable threw.
  * `decActive`: `--active_tasks_` (threadpool_v2.h:185).
  * `bumpTotalCompleted`: `++total_completed_` (threadpool_v2.h:186).
  * `beginShutdown`: the destructor stores `stop_ = true`
    (threadpool_v2.h:144). -/
inductive PStep (k : ℕ) : PoolState k → PoolState k → Prop where
  | submit {s : PoolState k} (q' : LockFreeQueue k Unit)
      (hstop : s.stop = false)
      (henq : try_enqueue s.queue () = EnqRes.ok q') :
      PStep k s { s with
        submitted := s.submitted + 1
        queue := q'
        totalEnqueued := s.totalEnqueued + 1
        queueDepthG := (size q' : ℤ) }
  | dequeue {s : PoolState k} (i : ℕ) (q' : LockFreeQueue k Unit)
      (hw : s.workers.get? i = some WStatus.idle)
      (hdeq : try_dequeue s.queue = DeqRes.got () q') :
      PStep k s { s with
        queue := q'
        workers := s.workers.set i WStatus.gotTask }
  | incActive {s : PoolState k} (i : ℕ)
      (hw : s.workers.get? i = some WStatus.gotTask) :
      PStep k s { s with
        active := s.active + 1
        workers := s.workers.set i WStatus.running }
  | execTask {s : PoolState k} (i : ℕ) (fails : Bool)
      (hw : s.workers.get? i = some WStatus.running) :
      PStep k s { s with
        workers := s.workers.set i WStatus.ranTask
        queueDepthG := (size s.queue : ℤ)
        latencyCount := s.latencyCount + 1
        completed := if fails then s.completed else s.completed + 1
        failed := if fails then s.failed + 1 else s.failed }
  | decActive {s : PoolState k} (i : ℕ)
      (hw : s.workers.get? i = some WStatus.ranTask) :
      PStep k s { s with
        active := s.active - 1
        workers := s.workers.set i WStatus.decremented }
  | bumpTotalCompleted {s : PoolState k} (i : ℕ)
      (hw : s.workers.get? i = some WStatus.decremented) :
      PStep k s { s with
        totalCompleted := s.totalCompleted + 1
        workers := s.workers.set i WStatus.idle }
  | beginShutdown {s : PoolState k} :
      PStep k s { s with stop := true }

/-- States reachable from a freshly constructed pool with `N` workers. -/
inductive PReach (k N : ℕ) : PoolState k → Prop where
  | init : PReach k N (initPoolState k N)
  | step {s s' : PoolState k} : PReach k N s → PStep k s s' → PReach k N s'

/-- Number of work items that have been dequeued from the ring but whose
execution, including the pool's own post-execution bookkeeping, has not
finished: the workers currently in the middle of a serving cycle. -/
def inFlight {k : ℕ} (s : PoolState k) : ℕ :=
  s.workers.countP (fun w => !(w == WStatus.idle))

/-- The exit condition of `ThreadPoolV2::wait_all` (threadpool_v2.h:130-134):
the spin loop returns as soon as `queue_.empty() && active_tasks_ == 0`. -/
def waitAllV2Done {k : ℕ} (s : PoolState k) : Prop :=
  LockFreeQueue.empty s.queue = true ∧ s.active = 0

/-- `ThreadPoolV3::wait_all` (threadpool_v3.h:146-150): after `pool_.wait_all()`
unblocks it sets `queue_depth_` and `active_workers_` to 0 and returns.  It
reads or writes none of the three task counters. -/
def waitAllV3 {k : ℕ} (s : PoolState k) : PoolState k :=
  { s with queueDepthG := 0, activeWorkersG := 0 }

/-- Result of `ThreadPoolV2::enqueue` (threadpool_v2.h:90-120) in the
sequential semantics. `errStopped` is the pre-loop
`throw runtime_error("ThreadPoolV2: enqueue on stopped pool")`;
`errStoppedDuring` is `throw runtime_error("Pool stopped during enqueue")`
from inside the retry loop; `errQueueFull attempts` is
`throw runtime_error("ThreadPoolV2: queue full after 1000 retries")`,
with `attempts` the number of failed `try_enqueue` calls made; `noFuel`
marks fuel exhaustion or a `spin` outcome, neither of which occurs in a
single-threaded run from a reachable ring state. -/
inductive EnqV2Res (k : ℕ) where
  | ok (q : LockFreeQueue k Unit)
  | errStopped
  | errStoppedDuring
  | errQueueFull (attempts : ℕ)
  | noFuel

/-- The retry loop of `ThreadPoolV2::enqueue` (threadpool_v2.h:109-116):
try to enqueue; on failure check `stop_`, bump `retries`, give up with
queue-full once `retries > 1000`, otherwise yield (a no-op here: in the
sequential semantics no other thread runs) and retry.  `fuel` only bounds
the recursion; `1002` units are more than the retry budget consumes. -/
def enqueueLoop (k : ℕ) (stop : Bool) (q : LockFreeQueue k Unit) :
    ℕ → ℕ → EnqV2Res k
  | _, 0 => EnqV2Res.noFuel
  | retries, fuel + 1 =>
    match try_enqueue q () with
    | EnqRes.ok q' => EnqV2Res.ok q'
    | EnqRes.full _ =>
      if stop then EnqV2Res.errStoppedDuring
      else if retries + 1 > 1000 then EnqV2Res.errQueueFull (retries + 1)
      else enqueueLoop k stop q (retries + 1) fuel
    | EnqRes.spin _ => EnqV2Res.noFuel

/-- `ThreadPoolV2::enqueue` (threadpool_v2.h:90-120), error behavior: the
`if (stop_) throw` guard, then the bounded retry loop. -/
def enqueueV2 (k : ℕ) (stop : Bool) (q : LockFreeQueue k Unit) : EnqV2Res k :=
  if stop then EnqV2Res.errStopped else enqueueLoop k stop q 0 1002

/-- The `ThreadPoolV2` constructor (threadpool_v2.h:72-82):
`num_threads == 0` is rejected with `invalid_argument`. -/
def mkThreadPoolV2 (k numThreads : ℕ) : Except String (PoolState k) :=
  if numThreads = 0 then Except.error "ThreadPoolV2: need at least 1 thread"
  else Except.ok (initPoolState k numThreads)

/-- Whether an enqueue outcome is the full-queue outcome. -/
def EnqRes.isFull {k : ℕ} {α : Type} : EnqRes k α → Bool
  | EnqRes.full _ => true
  | _ => false

/-- The call `queue_.try_enqueue(std::move(x))` as issued by
`ThreadPoolV2::enqueue` (threadpool_v2.h:110) on a `std::function` task,
including its C++ parameter-passing semantics: `bool try_enqueue(T item)`
(lockfree_queue.h:95) takes the item BY VALUE, so the parameter is
move-constructed from the caller's object when the call is made, before the
full/ok outcome is known.  Moving from a `std::function` leaves it empty,
modelled by `Option ℕ` with `none` the empty function.  The second component
of the result is the caller's variable after the call returns. -/
def tryEnqueueCallByMove {k : ℕ} (q : LockFreeQueue k (Option ℕ))
    (callerVar : Option ℕ) : EnqRes k (Option ℕ) × Option ℕ :=
  (try_enqueue q callerVar, none)

/-- A concrete capacity-2 ring filled to capacity (two committed items),
reached from a fresh ring by two successful enqueues. -/
def c2FullQueue : LockFreeQueue 1 (Option ℕ) :=
  (runRing (mkQueue 1 (Option ℕ)) [QOp.enq (some 1), QOp.enq (some 2)]).1

/-- The individually atomic actions of the instrumented wrapper
(threadpool_v3.h:119-139), used to state in which order the wrapper performs
them. -/
inductive WrapEvent where
  | incActiveGauge
  | setQueueDepthGauge
  | runCallable
  | deliverValue
  | deliverError
  | bumpFailed
  | decActiveGauge
  | observeLatency
  | bumpCompleted
deriving DecidableEq

/-- The metric state the wrapper touches: the two V3 counters it can bump,
the two gauges, the latency histogram observation count, and the
promise/future pair (`none` = pending, `some` = ready with value or captured
failure). -/
structure WrapState (ρ ε : Type) where
  completed : ℕ
  failed : ℕ
  activeWorkersG : ℤ
  queueDepthG : ℤ
  latencyCount : ℕ
  handle : Option (Except ε ρ)

/-- The wrapper lambda of `ThreadPoolV3::enqueue` (threadpool_v3.h:119-139),
executed by a worker.  `fn` is the outcome of the bound user callable: `.ok v`
if it returns `v`, `.error e` if it raises `e`.  `depth` is the value
`pool_.queue_depth()` reads at execution time.  The try/catch is translated
directly: a raising callable is caught, its failure is stored into the
promise and `tasks_failed_` is bumped; the wrapper itself never propagates a
failure, so the result is always `Except.ok` together with the trace of
events in execution order. -/
def runWrapper {ρ ε : Type} (depth : ℕ) (s : WrapState ρ ε) (fn : Except ε ρ) :
    Except ε (WrapState ρ ε × List WrapEvent) :=
  let s1 := { s with activeWorkersG := s.activeWorkersG + 1 }
  let s2 := { s1 with queueDepthG := (depth : ℤ) }
  let afterTry : WrapState ρ ε × Bool × List WrapEvent :=
    match fn with
    | Except.ok v =>
      ({ s2 with handle := some (Except.ok v) }, true,
        [WrapEvent.runCallable, WrapEvent.deliverValue])
    | Except.error e =>
      ({ s2 with handle := some (Except.error e), failed := s2.failed + 1 }, false,
        [WrapEvent.runCallable, WrapEvent.deliverError, WrapEvent.bumpFailed])
  let s3 := afterTry.1
  let ok := afterTry.2.1
  let s4 := { s3 with activeWorkersG := s3.activeWorkersG - 1 }
  let s5 := { s4 with queueDepthG := (depth : ℤ) }
  let s6 := { s5 with latencyCount := s5.latencyCount + 1 }
  let s7 := if ok then { s6 with completed := s6.completed + 1 } else s6
  Except.ok (s7,
    [WrapEvent.incActiveGauge, WrapEvent.setQueueDepthGauge] ++ afterTry.2.2 ++
      [WrapEvent.decActiveGauge, WrapEvent.setQueueDepthGauge, WrapEvent.observeLatency] ++
      (if ok then [WrapEvent.bumpCompleted] else []))

/-- The event trace of one wrapper execution. -/
def wrapEvents {ρ ε : Type} (depth : ℕ) (s : WrapState ρ ε) (fn : Except ε ρ) :
    List WrapEvent :=
  match runWrapper depth s fn with
  | Except.ok (_, evs) => evs
  | Except.error _ => []

/-- Modelled from the spec: the order in which the spec's section 4.4 says the
wrapper performs its steps — deliver the result, observe the latency, THEN
bump the completed or failed counter, THEN decrement the active-workers
gauge, THEN refresh the queue depth.  Stated only to be compared with the
order the source actually uses. -/
def specWrapperOrder (userFailed : Bool) : List WrapEvent :=
  [WrapEvent.incActiveGauge, WrapEvent.setQueueDepthGauge, WrapEvent.runCallable] ++
    (if userFailed then [WrapEvent.deliverError] else [WrapEvent.deliverValue]) ++
    [WrapEvent.observeLatency] ++
    (if userFailed then [WrapEvent.bumpFailed] else [WrapEvent.bumpCompleted]) ++
    [WrapEvent.decActiveGauge, WrapEvent.setQueueDepthGauge]

/-- A wrapper metric state with everything zeroed and the handle pending. -/
def wrapInitState : WrapState ℕ String :=
  { completed := 0, failed := 0, activeWorkersG := 0, queueDepthG := 0,
    latencyCount := 0, handle := none }

/-- The `Histogram` of metrics.h:86-144, with `double` bucket bounds modelled
as rationals (`observe` only compares them, it never does arithmetic on
them).  `bucketCounts` are the finite buckets in the order of `buckets`;
`infCount` is the implicit `+Inf` bucket (the last cell of `bucket_counts_`). -/
structure Histogram where
  buckets : List ℚ
  bucketCounts : List ℕ
  infCount : ℕ
  sum : ℚ
  count : ℕ

/-- The `Histogram` constructor (metrics.h:92-105): store the bounds, sort them
ascending (`std::sort`), and zero every bucket count, the sum and the count. -/
def mkHistogram (bs : List ℚ) : Histogram :=
  { buckets := List.insertionSort (fun a b => a ≤ b) bs
    bucketCounts := List.replicate bs.length 0
    infCount := 0
    sum := 0
    count := 0 }

/-- `Histogram::observe` (metrics.h:107-114): bump every finite bucket whose
upper bound is at least the observation, bump the `+Inf` bucket, add to the
sum, bump the count. -/
def observe (h : Histogram) (x : ℚ) : Histogram :=
  { h with
    bucketCounts :=
      List.zipWith (fun b c => if x ≤ b then c + 1 else c) h.buckets h.bucketCounts
    infCount := h.infCount + 1
    sum := h.sum + x
    count := h.count + 1 }

/-- A sequence of `observe` calls. -/
def observeAll (h : Histogram) (xs : List ℚ) : Histogram :=
  xs.foldl observe h

/-- The internal consistency of a histogram state: one count cell per bound,
`+Inf` equal to the total count, and cumulative bucket counts. -/
def HInv (h : Histogram) : Prop :=
  h.bucketCounts.length = h.buckets.length ∧
  h.infCount = h.count ∧
  ∀ i j : ℕ, i < h.bucketCounts.length → j < h.bucketCounts.length →
    h.buckets.getD i 0 ≤ h.buckets.getD j 0 →
    h.bucketCounts.getD i 0 ≤ h.bucketCounts.getD j 0

/-- The values carried by the enqueue operations of a trace, in order. -/
def enqValues {α : Type} (ops : List (QOp α)) : List α :=
  ops.filterMap fun op =>
    match op with
    | QOp.enq x => some x
    | QOp.deq => none

/-- The values returned by the successful dequeues of a run, in order. -/
def gotValues {α : Type} (outs : List (QOut α)) : List α :=
  outs.filterMap fun o =>
    match o with
    | QOut.deqGot x => some x
    | _ => none

/-- Ten cycles of enqueue-3/dequeue-3, the wrap-around workload of the test
`LockFreeQueueTest.RingBufferWrapAround` (values `i * 10`). -/
def cycleOps : List (QOp ℕ) :=
  (List.replicate 10
    [QOp.enq 0, QOp.enq 10, QOp.enq 20, QOp.deq, QOp.deq, QOp.deq]).flatten

/-- The outcomes the wrap-around workload is expected to produce: every cycle
returns the same three values in enqueue order. -/
def cycleOuts : List (QOut ℕ) :=
  (List.replicate 10
    [QOut.enqOk, QOut.enqOk, QOut.enqOk,
     QOut.deqGot 0, QOut.deqGot 10, QOut.deqGot 20]).flatten

/-- Whether an outcome is the successful-enqueue outcome. -/
def isEnqOk {α : Type} : QOut α → Bool
  | QOut.enqOk => true
  | _ => false

/-
  Theorems.
-/

theorem slotIndex_val (k pos : ℕ) : (slotIndex k pos).val = pos % 2 ^ k := by
  simp [slotIndex, MASK, Nat.and_pow_two_sub_one_eq_mod]

theorem slotIndex_eq_iff {k i j : ℕ} :
    slotIndex k i = slotIndex k j ↔ i % 2 ^ k = j % 2 ^ k := by
  constructor
  · intro h
    have h2 := congrArg Fin.val h
    simpa [slotIndex_val] using h2
  · intro h
    apply Fin.ext
    simpa [slotIndex_val] using h

theorem slotIndex_inj {k a i j : ℕ} (hi1 : a ≤ i) (hi2 : i < a + 2 ^ k)
    (hj1 : a ≤ j) (hj2 : j < a + 2 ^ k) (h : slotIndex k i = slotIndex k j) :
    i = j := by
  rw [slotIndex_eq_iff] at h
  rcases le_total i j with hle | hle
  · obtain ⟨c, hc⟩ := (Nat.modEq_iff_dvd' hle).mp h
    cases c with
    | zero => omega
    | succ c =>
      have h2 : 2 ^ k ≤ 2 ^ k * (c + 1) := Nat.le_mul_of_pos_right _ (Nat.succ_pos c)
      omega
  · obtain ⟨c, hc⟩ := (Nat.modEq_iff_dvd' hle).mp h.symm
    cases c with
    | zero => omega
    | succ c =>
      have h2 : 2 ^ k ≤ 2 ^ k * (c + 1) := Nat.le_mul_of_pos_right _ (Nat.succ_pos c)
      omega

theorem inv_mkQueue (k : ℕ) (α : Type) [Inhabited α] : Inv k (mkQueue k α) [] := by
  refine ⟨le_refl 0, by simp [mkQueue], by simp [mkQueue], ?_, ?_⟩
  · intro i hi _
    simp [mkQueue] at hi
  · intro i hi _
    show (slotIndex k i).val = i
    rw [slotIndex_val]
    exact Nat.mod_eq_of_lt (by simpa [mkQueue] using hi)

theorem size_eq_of_inv {α : Type} [Inhabited α] {k : ℕ} {q : LockFreeQueue k α}
    {L : List α} (hInv : Inv k q L) : size q = L.length := by
  obtain ⟨h1, _, h3, _, _⟩ := hInv
  unfold size
  split <;> omega


theorem try_enqueue_ok {α : Type} [Inhabited α] {k : ℕ} {q : LockFreeQueue k α}
    {L : List α} (hInv : Inv k q L) (hlen : L.length < 2 ^ k) (x : α) :
    try_enqueue q x = EnqRes.ok { q with
      tail := q.tail + 1
      slots := Function.update q.slots (slotIndex k q.tail)
        { sequence := q.tail + 1, data := x } } ∧
    Inv k { q with
      tail := q.tail + 1
      slots := Function.update q.slots (slotIndex k q.tail)
        { sequence := q.tail + 1, data := x } } (L ++ [x]) := by
  obtain ⟨h1, h2, h3, h4, h5⟩ := hInv
  have hcap : 0 < 2 ^ k := pow_pos (by decide) k
  have htail_lt : q.tail < q.head + 2 ^ k := by omega
  have hseq : (q.slots (slotIndex k q.tail)).sequence = q.tail :=
    h5 q.tail htail_lt (le_refl _)
  constructor
  · simp [try_enqueue, hseq]
  · refine ⟨?_, ?_, ?_, ?_, ?_⟩ <;> dsimp only
    · omega
    · omega
    · simp only [List.length_append, List.length_singleton]
      omega
    · intro i hi hhead
      by_cases hit : i = q.tail
      · subst hit
        rw [Function.update_same]
        refine ⟨rfl, ?_⟩
        show x = (L ++ [x]).getD (q.tail - q.head) default
        have hix : q.tail - q.head = L.length := by omega
        rw [hix]
        simp
      · have hne : slotIndex k i ≠ slotIndex k q.tail := by
          intro hcontra
          exact hit (slotIndex_inj (a := q.head) hhead (by omega) h1 htail_lt hcontra)
        rw [Function.update_noteq hne]
        obtain ⟨hs, hd⟩ := h4 i (by omega) hhead
        refine ⟨hs, ?_⟩
        rw [hd]
        have hlt2 : i - q.head < L.length := by omega
        simp [List.getD_eq_getElem?_getD, List.getElem?_append, hlt2]
    · intro i hi hti
      have hne : slotIndex k i ≠ slotIndex k q.tail := by
        intro hcontra
        have hieq : i = q.tail :=
          slotIndex_inj (a := q.head) (by omega) (by omega) h1 htail_lt hcontra
        omega
      rw [Function.update_noteq hne]
      exact h5 i (by omega) (by omega)

theorem try_enqueue_full {α : Type} [Inhabited α] {k : ℕ} (hk : 1 ≤ k)
    {q : LockFreeQueue k α} {L : List α}
    (hInv : Inv k q L) (hlen : L.length = 2 ^ k) (x : α) :
    try_enqueue q x = EnqRes.full q := by
  obtain ⟨h1, h2, h3, h4, h5⟩ := hInv
  have hcap : 2 ≤ 2 ^ k := by
    calc 2 = 2 ^ 1 := by decide
    _ ≤ 2 ^ k := Nat.pow_le_pow_right (by decide) hk
  have htail : q.tail = q.head + 2 ^ k := by omega
  have hidx : slotIndex k q.tail = slotIndex k q.head := by
    rw [slotIndex_eq_iff, htail]
    exact Nat.add_mod_right _ _
  have hlt : q.head < q.tail := by omega
  have hseq : (q.slots (slotIndex k q.head)).sequence = q.head + 1 :=
    (h4 q.head hlt (le_refl _)).1
  simp only [try_enqueue]
  rw [hidx, hseq]
  rw [if_neg (by push_cast; omega), if_pos (by push_cast; omega)]

theorem try_dequeue_empty {α : Type} [Inhabited α] {k : ℕ}
    {q : LockFreeQueue k α} (hInv : Inv k q []) :
    try_dequeue q = DeqRes.empty q := by
  obtain ⟨h1, h2, h3, h4, h5⟩ := hInv
  have hcap : 0 < 2 ^ k := pow_pos (by decide) k
  have hht : q.tail = q.head := by simp at h3; omega
  have hseq : (q.slots (slotIndex k q.head)).sequence = q.head :=
    h5 q.head (by omega) (by omega)
  simp only [try_dequeue]
  rw [hseq]
  rw [if_neg (by omega), if_pos (by omega)]

theorem try_dequeue_got {α : Type} [Inhabited α] {k : ℕ}
    {q : LockFreeQueue k α} {x : α} {L' : List α} (hInv : Inv k q (x :: L')) :
    try_dequeue q = DeqRes.got x { q with
      head := q.head + 1
      slots := Function.update q.slots (slotIndex k q.head)
        { sequence := q.head + 2 ^ k, data := (q.slots (slotIndex k q.head)).data } } ∧
    Inv k { q with
      head := q.head + 1
      slots := Function.update q.slots (slotIndex k q.head)
        { sequence := q.head + 2 ^ k, data := (q.slots (slotIndex k q.head)).data } } L' := by
  obtain ⟨h1, h2, h3, h4, h5⟩ := hInv
  have hcap : 0 < 2 ^ k := pow_pos (by decide) k
  have hlen : (x :: L').length = q.tail - q.head := h3
  have hlt : q.head < q.tail := by simp at hlen; omega
  obtain ⟨hseq, hdata⟩ := h4 q.head hlt (le_refl _)
  have hx : (q.slots (slotIndex k q.head)).data = x := by simpa using hdata
  constructor
  · simp only [try_dequeue]
    rw [hseq, hx]
    rw [if_pos (by push_cast; omega)]
  · refine ⟨?_, ?_, ?_, ?_, ?_⟩ <;> dsimp only
    · omega
    · omega
    · simp at hlen ⊢; omega
    · intro i hi hhead
      have hine : i ≠ q.head := by omega
      have hne : slotIndex k i ≠ slotIndex k q.head := by
        intro hcontra
        exact hine (slotIndex_inj (a := q.head) (by omega) (by omega) (le_refl _) (by omega) hcontra)
      rw [Function.update_noteq hne]
      obtain ⟨hs, hd⟩ := h4 i (by omega) (by omega)
      refine ⟨hs, ?_⟩
      rw [hd]
      have hstep : i - q.head = (i - (q.head + 1)) + 1 := by omega
      rw [hstep]
      simp
    · intro i hi hti
      by_cases hiw : i = q.head + 2 ^ k
      · subst hiw
        have hidx : slotIndex k (q.head + 2 ^ k) = slotIndex k q.head := by
          rw [slotIndex_eq_iff]
          exact Nat.add_mod_right _ _
        rw [hidx, Function.update_same]
      · have hine : i ≠ q.head := by omega
        have hne : slotIndex k i ≠ slotIndex k q.head := by
          intro hcontra
          exact hine (slotIndex_inj (a := q.head) (by omega) (by omega) (le_refl _) (by omega) hcontra)
        rw [Function.update_noteq hne]
        exact h5 i (by omega) (by omega)



theorem runRing_refines {α : Type} [Inhabited α] {k : ℕ} (hk : 1 ≤ k) :
    ∀ (ops : List (QOp α)) (q : LockFreeQueue k α) (L : List α), Inv k q L →
      (runRing q ops).2 = (runList (2 ^ k) L ops).2 ∧
      Inv k (runRing q ops).1 (runList (2 ^ k) L ops).1 := by
  intro ops
  induction ops with
  | nil => exact fun q L h => ⟨rfl, h⟩
  | cons op ops ih =>
    intro q L h
    cases op with
    | enq x =>
      by_cases hlen : L.length < 2 ^ k
      · obtain ⟨heq, hinv⟩ := try_enqueue_ok h hlen x
        obtain ⟨ih1, ih2⟩ := ih _ _ hinv
        simp only [runRing, heq, runList, if_pos hlen]
        exact ⟨by rw [ih1], ih2⟩
      · have hle : L.length ≤ 2 ^ k := by
          obtain ⟨h1, h2, h3, _, _⟩ := h
          omega
        have hlen' : L.length = 2 ^ k := by omega
        have heq := try_enqueue_full hk h hlen' x
        obtain ⟨ih1, ih2⟩ := ih _ _ h
        simp only [runRing, heq, runList, if_neg hlen]
        exact ⟨by rw [ih1], ih2⟩
    | deq =>
      cases L with
      | nil =>
        have heq := try_dequeue_empty h
        obtain ⟨ih1, ih2⟩ := ih _ _ h
        simp only [runRing, heq, runList]
        exact ⟨by rw [ih1], ih2⟩
      | cons y L' =>
        obtain ⟨heq, hinv⟩ := try_dequeue_got h
        obtain ⟨ih1, ih2⟩ := ih _ _ hinv
        simp only [runRing, heq, runList]
        exact ⟨by rw [ih1], ih2⟩




theorem enqRun_allOk {α : Type} [Inhabited α] {k : ℕ} (hk : 1 ≤ k) :
    ∀ (xs : List α) (q : LockFreeQueue k α) (L : List α), Inv k q L →
      ((runRing q (xs.map QOp.enq)).2.all isEnqOk) = true →
      Inv k (runRing q (xs.map QOp.enq)).1 (L ++ xs) := by
  intro xs
  induction xs with
  | nil => intro q L h _; simpa using h
  | cons x xs ih =>
    intro q L h hall
    by_cases hlen : L.length < 2 ^ k
    · obtain ⟨heq, hinv⟩ := try_enqueue_ok h hlen x
      simp only [List.map_cons, runRing, heq] at hall ⊢
      simp only [List.all_cons, Bool.and_eq_true] at hall
      have hrec := ih _ _ hinv hall.2
      simpa [List.append_assoc] using hrec
    · have hlen' : L.length = 2 ^ k := by
        obtain ⟨h1, h2, h3, _, _⟩ := h
        omega
      have heq := try_enqueue_full hk h hlen' x
      simp only [List.map_cons, runRing, heq, List.all_cons, Bool.and_eq_true] at hall
      simp [isEnqOk] at hall



/-- C5: for every capacity-2^k ring (k ≥ 1) and every sequence of operations
run from the fresh ring, `tail ≥ head` and `tail − head` stays in
`[0, capacity]`; consequently at most `capacity` consecutive `try_enqueue`
calls succeed without an intervening dequeue, and once `capacity` consecutive
enqueues have succeeded the next `try_enqueue` returns the full outcome. -/
theorem claim_C5 (k : ℕ) (hk : 1 ≤ k) (ops : List (QOp ℕ)) :
    ((runRing (mkQueue k ℕ) ops).1.head ≤ (runRing (mkQueue k ℕ) ops).1.tail ∧
      (runRing (mkQueue k ℕ) ops).1.tail - (runRing (mkQueue k ℕ) ops).1.head ≤ 2 ^ k) ∧
    ∀ xs : List ℕ,
      ((runRing (runRing (mkQueue k ℕ) ops).1 (xs.map QOp.enq)).2.all isEnqOk) = true →
      xs.length + size (runRing (mkQueue k ℕ) ops).1 ≤ 2 ^ k ∧
      (xs.length + size (runRing (mkQueue k ℕ) ops).1 = 2 ^ k →
        ∀ y : ℕ,
          (try_enqueue (runRing (runRing (mkQueue k ℕ) ops).1 (xs.map QOp.enq)).1 y).isFull
            = true) := by
  obtain ⟨_, hinv⟩ := runRing_refines hk ops (mkQueue k ℕ) [] (inv_mkQueue k ℕ)
  constructor
  · obtain ⟨h1, h2, _, _, _⟩ := hinv
    exact ⟨h1, by omega⟩
  · intro xs hall
    have hinv2 := enqRun_allOk hk xs _ _ hinv hall
    have hsz := size_eq_of_inv hinv
    have hlenle : ((runList (2 ^ k) [] ops).1 ++ xs).length ≤ 2 ^ k := by
      obtain ⟨h1, h2, h3, _, _⟩ := hinv2
      omega
    simp only [List.length_append] at hlenle
    constructor
    · omega
    · intro hfull y
      have hlen2 : ((runList (2 ^ k) [] ops).1 ++ xs).length = 2 ^ k := by
        simp only [List.length_append]
        omega
      rw [try_enqueue_full hk hinv2 hlen2 y]
      rfl

/-- Witness for C5 at a concrete input: capacity-2 ring, one committed item,
one more enqueue succeeds, then the ring is full and the next enqueue is
rejected. -/
theorem claim_C5_witness :
    (1 ≤ 1 ∧
      ((runRing (runRing (mkQueue 1 ℕ) [QOp.enq 5]).1 ([6].map QOp.enq)).2.all isEnqOk) = true ∧
      [6].length + size (runRing (mkQueue 1 ℕ) [QOp.enq 5]).1 = 2 ^ 1) ∧
    ((runRing (mkQueue 1 ℕ) [QOp.enq 5]).1.head ≤ (runRing (mkQueue 1 ℕ) [QOp.enq 5]).1.tail) ∧
    ([6].length + size (runRing (mkQueue 1 ℕ) [QOp.enq 5]).1 ≤ 2 ^ 1) ∧
    (try_enqueue (runRing (runRing (mkQueue 1 ℕ) [QOp.enq 5]).1 ([6].map QOp.enq)).1 7).isFull
      = true := by
  refine ⟨⟨le_refl 1, by decide, by decide⟩, ?_, ?_, ?_⟩
  · exact (claim_C5 1 (le_refl 1) [QOp.enq 5]).1.1
  · exact ((claim_C5 1 (le_refl 1) [QOp.enq 5]).2 [6] (by decide)).1
  · exact ((claim_C5 1 (le_refl 1) [QOp.enq 5]).2 [6] (by decide)).2 (by decide) 7



theorem enqValues_cons_enq {α : Type} (x : α) (ops : List (QOp α)) :
    enqValues (QOp.enq x :: ops) = x :: enqValues ops := rfl

theorem enqValues_cons_deq {α : Type} (ops : List (QOp α)) :
    enqValues (QOp.deq :: ops) = enqValues ops := rfl

theorem gotValues_cons_got {α : Type} (x : α) (outs : List (QOut α)) :
    gotValues (QOut.deqGot x :: outs) = x :: gotValues outs := rfl

theorem gotValues_cons_enqOk {α : Type} (outs : List (QOut α)) :
    gotValues (QOut.enqOk :: outs) = gotValues outs := rfl

theorem gotValues_cons_deqEmpty {α : Type} (outs : List (QOut α)) :
    gotValues (QOut.deqEmpty :: outs) = gotValues outs := rfl

theorem runList_fifo (C : ℕ) :
    ∀ (ops : List (QOp ℕ)) (d n m : ℕ),
      enqValues ops = List.range' (d + n) m →
      QOut.enqFull ∉ (runList C (List.range' d n) ops).2 →
      ∃ g, g ≤ n + m ∧
        gotValues (runList C (List.range' d n) ops).2 = List.range' d g ∧
        (runList C (List.range' d n) ops).1 = List.range' (d + g) (n + m - g) := by
  intro ops
  induction ops with
  | nil =>
    intro d n m hv hf
    cases m with
    | succ m' =>
      rw [List.range'_succ] at hv
      exact absurd hv (by simp [enqValues])
    | zero =>
      exact ⟨0, by omega, by simp [gotValues, runList], by simp [runList]⟩
  | cons op ops ih =>
    intro d n m hv hf
    cases op with
    | enq x =>
      cases m with
      | zero =>
        rw [enqValues_cons_enq] at hv
        simp at hv
      | succ m' =>
        rw [enqValues_cons_enq, List.range'_succ, List.cons_eq_cons] at hv
        obtain ⟨hx, hrest⟩ := hv
        subst hx
        by_cases hlen : (List.range' d n).length < C
        · have hQ : List.range' d n ++ [d + n] = List.range' d (n + 1) := by
            rw [List.range'_concat]
            simp
          have hv2 : enqValues ops = List.range' (d + (n + 1)) m' := by
            rw [hrest]
            congr 1 <;> omega
          simp only [runList, if_pos hlen, hQ] at hf ⊢
          have hf2 : QOut.enqFull ∉ (runList C (List.range' d (n + 1)) ops).2 := by
            intro hmem
            exact hf (List.mem_cons_of_mem _ hmem)
          obtain ⟨g, hg, hgot, hfin⟩ := ih d (n + 1) m' hv2 hf2
          refine ⟨g, by omega, ?_, ?_⟩
          · rw [gotValues_cons_enqOk, hgot]
          · rw [hfin]
            congr 1 <;> omega
        · exfalso
          simp only [runList, if_neg hlen] at hf
          exact hf (List.mem_cons_self _ _)
    | deq =>
      cases n with
      | zero =>
        have h0 : List.range' d 0 = ([] : List ℕ) := rfl
        rw [enqValues_cons_deq] at hv
        simp only [h0, runList] at hf ⊢
        have hf2 : QOut.enqFull ∉ (runList C ([] : List ℕ) ops).2 := by
          intro hmem
          exact hf (List.mem_cons_of_mem _ hmem)
        have hv2 : enqValues ops = List.range' (d + 0) m := hv
        obtain ⟨g, hg, hgot, hfin⟩ := ih d 0 m hv2 hf2
        rw [h0] at hgot hfin
        exact ⟨g, by omega, by rw [gotValues_cons_deqEmpty, hgot], by rw [hfin]⟩
      | succ n' =>
        rw [enqValues_cons_deq] at hv
        have hS : List.range' d (n' + 1) = d :: List.range' (d + 1) n' := List.range'_succ ..
        simp only [hS, runList] at hf ⊢
        have hf2 : QOut.enqFull ∉ (runList C (List.range' (d + 1) n') ops).2 := by
          intro hmem
          exact hf (List.mem_cons_of_mem _ hmem)
        have hv2 : enqValues ops = List.range' ((d + 1) + n') m := by
          rw [hv]
          congr 1 <;> omega
        obtain ⟨g', hg', hgot', hfin'⟩ := ih (d + 1) n' m hv2 hf2
        refine ⟨g' + 1, by omega, ?_, ?_⟩
        · rw [gotValues_cons_got, hgot', ← List.range'_succ]
        · rw [hfin']
          congr 1 <;> omega



/-- C6: in the sequential semantics the ring behaves exactly as the ideal
bounded FIFO queue (same outcome trace for every operation sequence); with a
single producer enqueuing the values `0..N` in order and a single consumer,
the dequeued values are exactly `0, 1, 2, ...` (a prefix of `0..N`, each
value exactly once), and dequeued values plus the remaining content together
are exactly the enqueued values (conservation); and the capacity-4
wrap-around workload of ten enqueue-3/dequeue-3 cycles returns the same
three values in the same order every cycle. -/
theorem claim_C6 :
    (∀ (k : ℕ), 1 ≤ k → ∀ (α : Type) [Inhabited α] (ops : List (QOp α)),
        (runRing (mkQueue k α) ops).2 = (runList (2 ^ k) ([] : List α) ops).2) ∧
    (∀ (k : ℕ), 1 ≤ k → ∀ (ops : List (QOp ℕ)) (N : ℕ),
        enqValues ops = List.range N →
        QOut.enqFull ∉ (runRing (mkQueue k ℕ) ops).2 →
        ∃ g, g ≤ N ∧ gotValues (runRing (mkQueue k ℕ) ops).2 = List.range g ∧
          gotValues (runRing (mkQueue k ℕ) ops).2 ++ (runList (2 ^ k) ([] : List ℕ) ops).1
            = List.range N) ∧
    (runRing (mkQueue 2 ℕ) cycleOps).2 = cycleOuts := by
  refine ⟨?_, ?_, ?_⟩
  · intro k hk α _ ops
    exact (runRing_refines hk ops _ _ (inv_mkQueue k α)).1
  · intro k hk ops N hv hf
    have href := (runRing_refines hk ops _ _ (inv_mkQueue k ℕ)).1
    rw [href] at hf
    have hv' : enqValues ops = List.range' (0 + 0) N := by
      simpa [List.range_eq_range'] using hv
    have hf' : QOut.enqFull ∉ (runList (2 ^ k) (List.range' 0 0) ops).2 := by
      simpa [List.range'_zero] using hf
    obtain ⟨g, hg, hgot, hfin⟩ := runList_fifo (2 ^ k) ops 0 0 N hv' hf'
    rw [List.range'_zero] at hgot hfin
    refine ⟨g, by omega, ?_, ?_⟩
    · rw [href, hgot, List.range_eq_range']
    · rw [href, hgot, hfin, List.range'_append_1, List.range_eq_range']
      congr 1 <;> omega
  · decide



/-- Witness for C6 at a concrete input: capacity-2 ring, interleaved
enqueues of 0 and 1 with dequeues. -/
theorem claim_C6_witness :
    (1 ≤ 1 ∧ enqValues [QOp.enq 0, QOp.deq, QOp.enq 1, QOp.deq] = List.range 2 ∧
      QOut.enqFull ∉ (runRing (mkQueue 1 ℕ) [QOp.enq 0, QOp.deq, QOp.enq 1, QOp.deq]).2) ∧
    ((runRing (mkQueue 1 ℕ) [QOp.enq 0, QOp.deq, QOp.enq 1, QOp.deq]).2 =
      (runList (2 ^ 1) ([] : List ℕ) [QOp.enq 0, QOp.deq, QOp.enq 1, QOp.deq]).2) ∧
    (∃ g, g ≤ 2 ∧
      gotValues (runRing (mkQueue 1 ℕ) [QOp.enq 0, QOp.deq, QOp.enq 1, QOp.deq]).2 =
        List.range g ∧
      gotValues (runRing (mkQueue 1 ℕ) [QOp.enq 0, QOp.deq, QOp.enq 1, QOp.deq]).2 ++
          (runList (2 ^ 1) ([] : List ℕ) [QOp.enq 0, QOp.deq, QOp.enq 1, QOp.deq]).1 =
        List.range 2) :=
  ⟨⟨le_refl 1, by decide, by decide⟩,
    claim_C6.1 1 (le_refl 1) ℕ [QOp.enq 0, QOp.deq, QOp.enq 1, QOp.deq],
    claim_C6.2.1 1 (le_refl 1) [QOp.enq 0, QOp.deq, QOp.enq 1, QOp.deq] 2 (by decide) (by decide)⟩

/-- C7: a freshly constructed ring has slot `p` holding sequence `p` and
`head = tail = 0`, so `size()` reports 0 and the first `try_dequeue` returns
the empty outcome. -/
theorem claim_C7 (k : ℕ) (hk : 1 ≤ k) (α : Type) [Inhabited α] (p : Fin (2 ^ k)) :
    ((mkQueue k α).slots p).sequence = p.val ∧
    (mkQueue k α).head = 0 ∧ (mkQueue k α).tail = 0 ∧
    size (mkQueue k α) = 0 ∧
    try_dequeue (mkQueue k α) = DeqRes.empty (mkQueue k α) :=
  ⟨rfl, rfl, rfl, rfl, try_dequeue_empty (inv_mkQueue k α)⟩

/-- Witness for C7 at a concrete input: fresh capacity-4 ring of naturals. -/
theorem claim_C7_witness :
    (1 ≤ 2 ∧ ((mkQueue 2 ℕ).slots ⟨0, by decide⟩).sequence = 0) ∧
    size (mkQueue 2 ℕ) = 0 ∧
    try_dequeue (mkQueue 2 ℕ) = DeqRes.empty (mkQueue 2 ℕ) :=
  ⟨⟨by decide, (claim_C7 2 (by decide) ℕ ⟨0, by decide⟩).1⟩,
    (claim_C7 2 (by decide) ℕ ⟨0, by decide⟩).2.2.2.1,
    (claim_C7 2 (by decide) ℕ ⟨0, by decide⟩).2.2.2.2⟩

theorem enqueueLoop_full_res {k : ℕ} {q : LockFreeQueue k Unit}
    (hfull : try_enqueue q () = EnqRes.full q) :
    ∀ (fuel retries : ℕ), retries ≤ 1000 → 1000 - retries < fuel →
      enqueueLoop k false q retries fuel = EnqV2Res.errQueueFull 1001 := by
  intro fuel
  induction fuel with
  | zero =>
    intro retries h1 h2
    omega
  | succ f ihf =>
    intro retries h1 h2
    simp only [enqueueLoop, hfull]
    by_cases hr : retries + 1 > 1000
    · have hrt : retries = 1000 := by omega
      subst hrt
      simp
    · simp only [if_neg hr, Bool.false_eq_true, if_false]
      exact ihf (retries + 1) (by omega) (by omega)

/-- C8: `ThreadPoolV2::enqueue` fails with the pool-stopped error when
shutdown has begun; on a full ring (with no intervening dequeue in the
sequential semantics) it retries with cooperative yields and fails with the
queue-full error after 1001 failed `try_enqueue` attempts, that is, the
initial attempt plus the bounded budget of 1000 retries; both errors are
returned to the caller synchronously; and construction with worker count 0
is rejected while any nonzero worker count is accepted. -/
theorem claim_C8 :
    (∀ (k : ℕ) (q : LockFreeQueue k Unit), enqueueV2 k true q = EnqV2Res.errStopped) ∧
    (∀ k : ℕ, 1 ≤ k → ∀ ops : List (QOp Unit),
      size (runRing (mkQueue k Unit) ops).1 = 2 ^ k →
      enqueueV2 k false (runRing (mkQueue k Unit) ops).1 = EnqV2Res.errQueueFull 1001) ∧
    (∀ k : ℕ, mkThreadPoolV2 k 0 = Except.error "ThreadPoolV2: need at least 1 thread") ∧
    (∀ k numThreads : ℕ, numThreads ≠ 0 →
      mkThreadPoolV2 k numThreads = Except.ok (initPoolState k numThreads)) := by
  refine ⟨?_, ?_, ?_, ?_⟩
  · intro k q
    rfl
  · intro k hk ops hsz
    obtain ⟨_, hinv⟩ := runRing_refines hk ops (mkQueue k Unit) [] (inv_mkQueue k Unit)
    have hlen : (runList (2 ^ k) ([] : List Unit) ops).1.length = 2 ^ k := by
      have := size_eq_of_inv hinv
      omega
    have hfull := try_enqueue_full hk hinv hlen ()
    show enqueueLoop k false _ 0 1002 = EnqV2Res.errQueueFull 1001
    exact enqueueLoop_full_res hfull 1002 0 (by omega) (by omega)
  · intro k
    rfl
  · intro k n hn
    simp [mkThreadPoolV2, hn]

/-- Witness for C8 at a concrete input: capacity-2 ring filled by two
enqueues. -/
theorem claim_C8_witness :
    (1 ≤ 1 ∧ size (runRing (mkQueue 1 Unit) [QOp.enq (), QOp.enq ()]).1 = 2 ^ 1 ∧
      (2 : ℕ) ≠ 0) ∧
    enqueueV2 1 true (mkQueue 1 Unit) = EnqV2Res.errStopped ∧
    enqueueV2 1 false (runRing (mkQueue 1 Unit) [QOp.enq (), QOp.enq ()]).1 =
      EnqV2Res.errQueueFull 1001 ∧
    mkThreadPoolV2 1 0 = Except.error "ThreadPoolV2: need at least 1 thread" ∧
    mkThreadPoolV2 1 2 = Except.ok (initPoolState 1 2) :=
  ⟨⟨le_refl 1, by decide, by decide⟩, claim_C8.1 1 (mkQueue 1 Unit),
    claim_C8.2.1 1 (le_refl 1) [QOp.enq (), QOp.enq ()] (by decide),
    claim_C8.2.2.1 1, claim_C8.2.2.2 1 2 (by decide)⟩



/-- C3: the claimed active-task invariant FAILS on the code.  The worker loop
(threadpool_v2.h:179-183) dequeues first and increments `active_tasks_`
afterwards, so the pool reaches a state in which one item has been dequeued
(`inFlight = 1`) while `active_tasks_ = 0` — the very gap the source's own
comment block (threadpool_v2.h:59-67) declares incorrect — and in that state
the exit condition of `wait_all` already holds even though the task has not
executed.  The state below is reached from a freshly constructed one-worker
pool by one successful submit followed by the worker's successful dequeue. -/
theorem claim_C3 :
    ∃ s : PoolState 2, PReach 2 1 s ∧ s.active = 0 ∧ inFlight s = 1 ∧ waitAllV2Done s := by
  refine ⟨_, PReach.step (PReach.step PReach.init (PStep.submit _ rfl rfl))
      (PStep.dequeue 0 _ rfl rfl), rfl, by decide, by decide, rfl⟩

/-- C1: the claimed two-phase `wait_all` FAILS on the code.
`ThreadPoolV3::wait_all` (threadpool_v3.h:146-150) performs no second
counter-polling phase: it only calls the inner pool's `wait_all` and zeroes
the two gauges, leaving the task counters untouched.  Because of the
dequeue-before-increment gap in the worker loop, the pool reaches a state in
which the inner `wait_all` exit condition holds while
`tasks_submitted_total = 1` and `tasks_completed_total + tasks_failed_total
= 0`; `wait_all` then returns immediately with the counters still unequal. -/
theorem claim_C1 :
    ∃ s : PoolState 1, PReach 1 1 s ∧ waitAllV2Done s ∧
      (waitAllV3 s).submitted = 1 ∧
      (waitAllV3 s).completed + (waitAllV3 s).failed = 0 := by
  refine ⟨_, PReach.step (PReach.step PReach.init (PStep.submit _ rfl rfl))
      (PStep.dequeue 0 _ rfl rfl), ⟨by decide, rfl⟩, rfl, rfl⟩

/-- C2: the claim that on the full outcome the item is returned to the
caller unchanged FAILS on the code.  `try_enqueue` takes its item by value
and the pool's retry loop passes `std::move(task)`, so the caller's
`std::function` is moved into the parameter before the outcome is known:
after a full outcome the caller's variable is empty (`none`), not the
original item. -/
theorem claim_C2 :
    (tryEnqueueCallByMove c2FullQueue (some 42)).1.isFull = true ∧
    (tryEnqueueCallByMove c2FullQueue (some 42)).2 = none ∧
    (tryEnqueueCallByMove c2FullQueue (some 42)).2 ≠ some 42 :=
  ⟨by decide, by decide, by decide⟩

/-- C4 counterexample: the order the spec states for the wrapper — deliver,
observe latency, bump the completed or failed counter, decrement the
active-workers gauge, refresh queue depth — is NOT the order the source's
wrapper performs on a successfully returning callable. -/
theorem claim_C4_counterexample :
    wrapEvents 0 wrapInitState (Except.ok 7) ≠ specWrapperOrder false := by decide

/-- C4 (amended): the wrapper executed by a worker performs its steps in this
order: bump `active_workers_current`, refresh queue depth, run the underlying
callable and deliver success or captured failure to the handle (bumping
`tasks_failed_total` immediately inside the failure handler), then decrement
`active_workers_current`, then refresh queue depth, then observe the latency
into the histogram, and finally bump `tasks_completed_total` on the success
path. -/
theorem claim_C4 (ρ ε : Type) (depth : ℕ) (s : WrapState ρ ε) (fn : Except ε ρ) :
    wrapEvents depth s fn =
      [WrapEvent.incActiveGauge, WrapEvent.setQueueDepthGauge, WrapEvent.runCallable] ++
        (match fn with
          | Except.ok _ => [WrapEvent.deliverValue]
          | Except.error _ => [WrapEvent.deliverError, WrapEvent.bumpFailed]) ++
        ([WrapEvent.decActiveGauge, WrapEvent.setQueueDepthGauge, WrapEvent.observeLatency] ++
          (match fn with
            | Except.ok _ => [WrapEvent.bumpCompleted]
            | Except.error _ => ([] : List WrapEvent))) := by
  cases fn <;> simp [wrapEvents, runWrapper]

/-- C9: a submitted callable that raises a failure has the failure captured
into the result handle (the handle becomes ready with the captured failure,
which a read re-raises), `tasks_failed_total` is incremented while
`tasks_completed_total` is not, and the wrapper returns normally instead of
propagating the failure into the worker loop, so workers keep running. -/
theorem claim_C9 (ρ ε : Type) (depth : ℕ) (s : WrapState ρ ε) (e : ε) :
    ∃ (s' : WrapState ρ ε) (evs : List WrapEvent),
      runWrapper depth s (Except.error e) = Except.ok (s', evs) ∧
      s'.handle = some (Except.error e) ∧
      s'.failed = s.failed + 1 ∧
      s'.completed = s.completed :=
  ⟨_, _, rfl, rfl, rfl, rfl⟩



theorem hinv_mkHistogram (bs : List ℚ) : HInv (mkHistogram bs) := by
  refine ⟨?_, rfl, ?_⟩
  · simp [mkHistogram]
  · intro i j hi hj _
    simp only [mkHistogram] at hi hj ⊢
    simp only [List.length_replicate] at hi hj
    simp [List.getD_eq_getElem?_getD, List.getElem?_replicate, hi, hj]

theorem hinv_observe {h : Histogram} (hh : HInv h) (x : ℚ) : HInv (observe h x) := by
  obtain ⟨hlen, hic, hmono⟩ := hh
  have hlen2 : (observe h x).bucketCounts.length = h.bucketCounts.length := by
    simp [observe, List.length_zipWith, hlen]
  refine ⟨?_, ?_, ?_⟩
  · simp [observe, List.length_zipWith, hlen]
  · simp [observe, hic]
  · intro i j hi hj hbo
    rw [hlen2] at hi hj
    have hib : i < h.buckets.length := by omega
    have hjb : j < h.buckets.length := by omega
    have hbkt : (observe h x).buckets = h.buckets := rfl
    rw [hbkt] at hbo
    have ei : (observe h x).bucketCounts.getD i 0 =
        if x ≤ h.buckets.getD i 0 then h.bucketCounts.getD i 0 + 1
        else h.bucketCounts.getD i 0 := by
      simp only [observe, List.getD_eq_getElem?_getD, List.getElem?_zipWith,
        List.getElem?_eq_getElem hib, List.getElem?_eq_getElem hi, Option.getD_some]
    have ej : (observe h x).bucketCounts.getD j 0 =
        if x ≤ h.buckets.getD j 0 then h.bucketCounts.getD j 0 + 1
        else h.bucketCounts.getD j 0 := by
      simp only [observe, List.getD_eq_getElem?_getD, List.getElem?_zipWith,
        List.getElem?_eq_getElem hjb, List.getElem?_eq_getElem hj, Option.getD_some]
    rw [ei, ej]
    have hmono2 := hmono i j hi hj hbo
    by_cases hxi : x ≤ h.buckets.getD i 0
    · rw [if_pos hxi, if_pos (le_trans hxi hbo)]
      omega
    · rw [if_neg hxi]
      by_cases hxj : x ≤ h.buckets.getD j 0
      · rw [if_pos hxj]
        omega
      · rw [if_neg hxj]
        exact hmono2

theorem observeAll_hinv (h : Histogram) (xs : List ℚ) (hh : HInv h) :
    HInv (observeAll h xs) := by
  induction xs generalizing h with
  | nil => exact hh
  | cons x xs ih => exact ih _ (hinv_observe hh x)

theorem observeAll_count (h : Histogram) (xs : List ℚ) :
    (observeAll h xs).count = h.count + xs.length ∧
    (observeAll h xs).infCount = h.infCount + xs.length ∧
    (observeAll h xs).buckets = h.buckets := by
  induction xs generalizing h with
  | nil => exact ⟨rfl, rfl, rfl⟩
  | cons x xs ih =>
    obtain ⟨h1, h2, h3⟩ := ih (observe h x)
    refine ⟨?_, ?_, ?_⟩
    · rw [observeAll] at h1 ⊢
      simp only [List.foldl_cons]
      rw [h1]
      simp [observe]
      omega
    · rw [observeAll] at h2 ⊢
      simp only [List.foldl_cons]
      rw [h2]
      simp [observe]
      omega
    · rw [observeAll] at h3 ⊢
      simp only [List.foldl_cons]
      rw [h3]
      rfl



/-- C10: the Histogram constructor sorts its bucket bounds, and after every
sequence of `observe` calls the bucket counts are cumulative — the count of
a bucket is at most the count of every bucket with a greater-or-equal upper
bound — the `+Inf` bucket count equals the total count, and the total count
equals the number of `observe` calls. -/
theorem claim_C10 (bs xs : List ℚ) :
    List.Sorted (fun a b => a ≤ b) (mkHistogram bs).buckets ∧
    (observeAll (mkHistogram bs) xs).count = xs.length ∧
    (observeAll (mkHistogram bs) xs).infCount = (observeAll (mkHistogram bs) xs).count ∧
    ∀ i j : ℕ, i < (observeAll (mkHistogram bs) xs).bucketCounts.length →
      j < (observeAll (mkHistogram bs) xs).bucketCounts.length →
      (observeAll (mkHistogram bs) xs).buckets.getD i 0 ≤
        (observeAll (mkHistogram bs) xs).buckets.getD j 0 →
      (observeAll (mkHistogram bs) xs).bucketCounts.getD i 0 ≤
        (observeAll (mkHistogram bs) xs).bucketCounts.getD j 0 := by
  obtain ⟨hc, hinf, _⟩ := observeAll_count (mkHistogram bs) xs
  obtain ⟨_, hic, hmono⟩ := observeAll_hinv (mkHistogram bs) xs (hinv_mkHistogram bs)
  refine ⟨?_, ?_, ?_, hmono⟩
  · exact List.sorted_insertionSort _ bs
  · rw [hc]
    simp [mkHistogram]
  · exact hic

/-- Witness for C10 at a concrete input: bounds `[2, 1]`, observations
`[1, 3]`. -/
theorem claim_C10_witness :
    ((0 : ℕ) < 2 ∧ (1 : ℕ) < 2 ∧
      (observeAll (mkHistogram [2, 1]) [1, 3]).buckets.getD 0 0 ≤
        (observeAll (mkHistogram [2, 1]) [1, 3]).buckets.getD 1 0) ∧
    List.Sorted (fun a b => a ≤ b) (mkHistogram [(2 : ℚ), 1]).buckets ∧
    (observeAll (mkHistogram [(2 : ℚ), 1]) [1, 3]).count = 2 ∧
    (observeAll (mkHistogram [(2 : ℚ), 1]) [1, 3]).bucketCounts.getD 0 0 ≤
      (observeAll (mkHistogram [(2 : ℚ), 1]) [1, 3]).bucketCounts.getD 1 0 := by
  have hlen : (observeAll (mkHistogram [(2 : ℚ), 1]) [1, 3]).bucketCounts.length = 2 := by
    decide
  refine ⟨⟨by decide, by decide, by decide⟩, (claim_C10 [2, 1] [1, 3]).1,
    (claim_C10 [2, 1] [1, 3]).2.1, ?_⟩
  exact (claim_C10 [2, 1] [1, 3]).2.2.2 0 1 (by rw [hlen]; decide) (by rw [hlen]; decide)
    (by decide)


end LockFreePool
